import Mathlib

/-!
Verification of the configuration core of the `showyourwork` repository
(`showyourwork/config.py`).

The shallow embedding models YAML-derived Python values as the inductive
type `Val` (scalars, lists, plain dicts, `OrderedDict`s), with mappings as
association lists over string keys carrying Python `dict` insertion
semantics (`pySet`, `pyDict`, `pyUpdate`).  The functions of the source
file are translated one by one:

* `as_dict` (config.py lines 99-136) — `as_dictF` / `as_dict`, with the
  recursion expressed through a fuel parameter; the source guards the
  recursion by `depth > maxdepth` (maxdepth 30, and the recursive call
  always uses the default 30), so fuel `32` at depth 0 makes the fuel
  bound unreachable: the fuel-exhaustion branch coincides with the
  source's depth guard.
* `get_upstream_dependencies` (lines 139-155) — `gud` (set-valued
  recursion, fuel for the unbounded recursion of the source) and the
  list-returning top-level wrapper `get_upstream_dependencies`.
* `parse_overleaf` (lines 158-225) — `parse_overleaf`, with the
  filesystem path resolution (`Path(file).resolve().relative_to(...)`,
  an external collaborator) abstracted as a `resolveRel` argument.
* the every-run tail of `parse_config` (lines 420-458) —
  `parse_config_main`, with the git/CI collaborators abstracted as the
  `GitInfo` structure plus explicit arguments; `ensure_branch_cache`
  models lines 428-436 and `stamp_text_of` lines 439-453.

Python strings are modeled as Lean `String`s, with `str.replace`
translated to the executable `replaceChars` over character lists
(fuel-structured so that every definition reduces in the kernel).
-/

/-- A YAML/JSON-derived Python value: scalars, lists, plain `dict`s and
`OrderedDict`s.  Mappings are association lists of string keys in
insertion order, mirroring Python dict ordering. -/
inductive Val where
  | null : Val
  | bool : Bool → Val
  | int : Int → Val
  | str : String → Val
  | list : List Val → Val
  | dict : List (String × Val) → Val
  | odict : List (String × Val) → Val

/-- Python truthiness (`not x` in `as_dict` line 113 is `isFalsy`). -/
def isFalsy : Val → Bool
  | .null => true
  | .bool b => !b
  | .int n => n == 0
  | .str s => s == ""
  | .list xs => xs.isEmpty
  | .dict ps => ps.isEmpty
  | .odict ps => ps.isEmpty

/-- `type(x) is OrderedDict` (config.py lines 119-120). -/
def isOD : Val → Bool
  | .odict _ => true
  | _ => false

/-- `type(x) is list` (config.py line 118). -/
def isList : Val → Bool
  | .list _ => true
  | _ => false

/-- The pair list held by an ordered mapping. -/
def odPairs : Val → List (String × Val)
  | .odict ps => ps
  | _ => []

/-- Python `d[k]` read: value of the first entry with key `k`. -/
def alookup (ps : List (String × Val)) (k : String) : Option Val :=
  match ps.find? (fun p => p.1 == k) with
  | some p => some p.2
  | none => none

/-- Python `d[k] = v`: replace the value at the existing position of `k`,
or append a new entry. -/
def pySet : List (String × Val) → String → Val → List (String × Val)
  | [], k, v => [(k, v)]
  | (k', v') :: rest, k, v =>
    if k' == k then (k', v) :: rest else (k', v') :: pySet rest k v

/-- Python `dict(pairs)` / `OrderedDict(pairs)`: insert the pairs left to
right (`d[k] = v` semantics). -/
def pyDict (ps : List (String × Val)) : List (String × Val) :=
  ps.foldl (fun d p => pySet d p.1 p.2) []

/-- Python `d.update(m)`. -/
def pyUpdate (d m : List (String × Val)) : List (String × Val) :=
  m.foldl (fun d p => pySet d p.1 p.2) d

/-- Python `dict(ChainMap(*ms))`: iteration order comes from the reversed
map list (`ChainMap.__iter__` updates from `reversed(self.maps)`), and a
lookup resolves to the earliest map containing the key — which is exactly
a left fold of `update` over the reversed list. -/
def dictChainMap (ms : List (List (String × Val))) : List (String × Val) :=
  ms.reverse.foldl pyUpdate []

/-- Line 119 of config.py:
`dict(ChainMap(*[dict(xi) for xi in x if type(xi) is OrderedDict]))`. -/
def mergedOD (xs : List Val) : List (String × Val) :=
  dictChainMap ((xs.filter isOD).map (fun v => pyDict (odPairs v)))

/-- Lines 118-130 of `as_dict`: the (non-recursive) reshaping of `x`
before the recursion into mapping values. -/
def listStep : Val → Val
  | .list xs =>
    let y := mergedOD xs
    let z := xs.filter (fun v => !(isOD v))
    if !z.isEmpty then
      if !y.isEmpty then .list (.dict y :: z) else .list z
    else .dict y
  | .odict ps => .dict (pyDict ps)
  | x => x

/-- `for key, value in x.items(): x[key] = f value` with error
propagation: normalize the values of a mapping left to right. -/
def normPairs (f : Val → Except Unit Val) :
    List (String × Val) → Except Unit (List (String × Val))
  | [] => .ok []
  | (k, v) :: rest => do
    let v' ← f v
    let rest' ← normPairs f rest
    pure ((k, v') :: rest')

/-- `as_dict(x, depth, maxdepth)` (config.py lines 99-136), with an
explicit fuel.  The `.error ()` value is `exceptions.ConfigError`.  The
recursive call of the source is `as_dict(value, depth + 1)`, so the inner
maxdepth is always the default `30`.  At fuel `0` the depth-0-falsy and
depth-guard outcomes are still decided exactly; a fuel of at least
`31 - depth` makes the `.error` of fuel exhaustion unreachable, so the
wrapper `as_dict` below (fuel 32 at depth 0) is the exact function. -/
def as_dictF : Nat → Val → Nat → Nat → Except Unit Val
  | 0, x, depth, _ =>
    if depth == 0 && isFalsy x then .ok (.dict []) else .error ()
  | fuel + 1, x, depth, maxdepth =>
    if depth == 0 && isFalsy x then .ok (.dict [])
    else if maxdepth < depth then .error ()
    else
      match listStep x with
      | .dict ps =>
        (normPairs (fun v => as_dictF fuel v (depth + 1) 30) ps).map Val.dict
      | other => .ok other

/-- `as_dict(x)` with the source's default arguments. -/
def as_dict (x : Val) : Except Unit Val :=
  as_dictF 32 x 0 30

/-- Left-biased choice on `Option`. -/
def oOr (a b : Option α) : Option α :=
  match a with
  | some v => some v
  | none => b

/-- First `some` of a function over a list, left to right.  Used to state
which element an ordered-mapping merge takes each key from. -/
def firstSome (l : List α) (f : α → Option β) : Option β :=
  match l with
  | [] => none
  | a :: rest => oOr (f a) (firstSome rest f)

mutual

/-- Mapping-nesting depth of a value: mappings (plain or ordered) count
one level each, sequences are transparent containers, scalars are 0. -/
def mdepth : Val → Nat
  | .dict ps => 1 + mdepthPairs ps
  | .odict ps => 1 + mdepthPairs ps
  | .list xs => mdepthList xs
  | _ => 0

/-- Maximal `mdepth` over the elements of a sequence. -/
def mdepthList : List Val → Nat
  | [] => 0
  | v :: rest => max (mdepth v) (mdepthList rest)

/-- Maximal `mdepth` over the values of a mapping. -/
def mdepthPairs : List (String × Val) → Nat
  | [] => 0
  | p :: rest => max (mdepth p.2) (mdepthPairs rest)

end

mutual

/-- Does an ordered mapping occur anywhere inside a value? -/
def hasOD : Val → Bool
  | .odict _ => true
  | .dict ps => hasODPairs ps
  | .list xs => hasODList xs
  | _ => false

/-- `hasOD` over the elements of a sequence. -/
def hasODList : List Val → Bool
  | [] => false
  | v :: rest => hasOD v || hasODList rest

/-- `hasOD` over the values of a mapping. -/
def hasODPairs : List (String × Val) → Bool
  | [] => false
  | p :: rest => hasOD p.2 || hasODPairs rest

end

mutual

/-- Does an ordered mapping occur at the top of a value or nested purely
through plain-mapping values (that is, reachable without crossing a
sequence)? -/
def hasShallowOD : Val → Bool
  | .odict _ => true
  | .dict ps => hasShallowODPairs ps
  | _ => false

/-- `hasShallowOD` over the values of a mapping. -/
def hasShallowODPairs : List (String × Val) → Bool
  | [] => false
  | p :: rest => hasShallowOD p.2 || hasShallowODPairs rest

end

/-- A pure mapping chain of the given depth: `mchain (n+1)` is a
one-entry plain dict whose value is `mchain n`; `mchain 0` is a scalar. -/
def mchain : Nat → Val
  | 0 => .int 1
  | n + 1 => .dict [("k", mchain n)]

/-- `dependencies.get(file, [])` (config.py line 145): the dependency map
is a Python dict from file identifier to its direct dependency list. -/
def lookupDeps (deps : List (String × List String)) (file : String) :
    List String :=
  match deps.find? (fun p => p.1 == file) with
  | some p => p.2
  | none => []

/-- The loop body of `get_upstream_dependencies` (lines 146-149):
`res |= {dep}; res |= get_upstream_dependencies(dep, ...)` over the
direct dependency list, with `none` (out of fuel, modelling unbounded
recursion) propagating. -/
def gudList (g : String → Option (Finset String)) :
    List String → Option (Finset String)
  | [] => some ∅
  | d :: rest =>
    match g d, gudList g rest with
    | some s, some t => some (insert d (s ∪ t))
    | _, _ => none

/-- `get_upstream_dependencies` (config.py lines 139-155) as a set-valued
recursion with explicit fuel; the source has no termination guard, and a
result of `none` for every fuel is how the embedding renders its
unbounded recursion.  The `depth` parameter of the source only selects
the top-level list conversion, done by the wrapper below. -/
def gud : Nat → String → List (String × List String) → Option (Finset String)
  | 0, _, _ => none
  | fuel + 1, file, deps => gudList (fun d => gud fuel d deps) (lookupDeps deps file)

/-- The depth-0 entry point: `return list(res)` (line 153).  Python's
`list` of a set enumerates in unspecified order; the embedding picks the
sorted enumeration of the result set. -/
def get_upstream_dependencies (fuel : Nat) (file : String)
    (deps : List (String × List String)) : Option (List String) :=
  (gud fuel file deps).map (fun s => s.sort (· ≤ ·))

/-- Direct dependency edge: `y` appears in the declared dependency list
of `x`. -/
def Edge (deps : List (String × List String)) (x y : String) : Prop :=
  y ∈ lookupDeps deps x

/-- Transitive dependency (one or more edges): the files transitively
required to produce `x`. -/
inductive Reaches (deps : List (String × List String)) : String → String → Prop where
  | single : Edge deps x y → Reaches deps x y
  | head : Edge deps x y → Reaches deps y z → Reaches deps x z

/-- An acyclic dependency map: no file transitively requires itself. -/
def Acyclic (deps : List (String × List String)) : Prop :=
  ∀ x, ¬ Reaches deps x x

/-- The declared keys of a dependency map, as a finite set. -/
def keysOf (deps : List (String × List String)) : Finset String :=
  (deps.map Prod.fst).toFinset

/-- `parse_overleaf` (config.py lines 158-225).  The configuration's
`overleaf` section is the argument and the updated section is returned
(the source mutates the workflow-global config in place).  The
filesystem-dependent `Path(file).resolve().relative_to(paths.user().tex)`
is the abstract collaborator `resolveRel`: `none` models the `ValueError`
of a path outside the manuscript-source root.  `.error ()` is
`exceptions.ConfigError`. -/
def parse_overleaf (resolveRel : Val → Option String)
    (overleaf : List (String × Val)) : Except Unit (List (String × Val)) := do
  let overleaf := pySet overleaf "id" ((alookup overleaf "id").getD .null)
  let overleaf := pySet overleaf "gh_actions_sync"
    ((alookup overleaf "gh_actions_sync").getD (.bool true))
  let pushV := (alookup overleaf "push").getD (.list [])
  let overleaf := pySet overleaf "push" pushV
  let overleaf ← match pushV with
    | .null => pure (pySet overleaf "push" (.list []))
    | .list _ => pure overleaf
    | _ => Except.error ()
  let pullV := (alookup overleaf "pull").getD (.list [])
  let overleaf := pySet overleaf "pull" pullV
  let overleaf ← match pullV with
    | .null => pure (pySet overleaf "pull" (.list []))
    | .list _ => pure overleaf
    | _ => Except.error ()
  let pushList := match alookup overleaf "push" with
    | some (.list l) => l
    | _ => []
  let pullList := match alookup overleaf "pull" with
    | some (.list l) => l
    | _ => []
  if (pushList ++ pullList).any (fun f => (resolveRel f).isNone) then
    Except.error ()
  else
    let push_files : Finset String := (pushList.filterMap resolveRel).toFinset
    let pull_files : Finset String := (pullList.filterMap resolveRel).toFinset
    if (push_files ∩ pull_files).card ≠ 0 then Except.error ()
    else pure overleaf

/-- Python `s.replace(pat, rep)` over character lists, fuel-structured:
scan left to right, replace each non-overlapping occurrence, continue
after the inserted replacement.  Fuel at least `s.length` is exact. -/
def replaceGo : Nat → List Char → List Char → List Char → List Char
  | 0, s, _, _ => s
  | _ + 1, [], _, _ => []
  | n + 1, c :: rest, pat, rep =>
    if pat ≠ [] ∧ pat.isPrefixOf (c :: rest) then
      rep ++ replaceGo n ((c :: rest).drop pat.length) pat rep
    else
      c :: replaceGo n rest pat rep

/-- Python `s.replace(pat, rep)`. -/
def replaceChars (s pat rep : List Char) : List Char :=
  replaceGo s.length s pat rep

/-- Lines 440-442: strip the scheme —
`url.replace("https://", "").replace("http://", "")`. -/
def stripSchemes (s : List Char) : List Char :=
  replaceChars (replaceChars s "https://".data "".data) "http://".data "".data

/-- The host-collapsed variant used in the length check (line 444):
`stamp_text.replace("github.com", "X")`. -/
def collapsedHost (s : List Char) : List Char :=
  replaceChars s "github.com".data "X".data

/-- Lines 448-450: escape underscores and replace the host fragment by
the icon macro. -/
def escapeStamp (s : List Char) : List Char :=
  replaceChars (replaceChars s "_".data "\x7b\\_\x7d".data)
    "github.com".data "\x7b\\faGithub\x7d".data

/-- Stamp text derivation with the URL stamp enabled (config.py lines
440-451): strip the scheme, compute `trim` from the host-collapsed
length, truncate `stamp_text[:-(trim + 3)] + "..."` when `trim > 0`,
then escape. -/
def stamp_text_of (url : String) (maxlen : Int) : String :=
  let s := stripSchemes url.data
  let trim : Int := ((collapsedHost s).length : Int) - maxlen
  let s := if 0 < trim then s.take (s.length - (trim.toNat + 3)) ++ "...".data else s
  String.mk (escapeStamp s)

/-- The error kinds the every-run tail of `parse_config` can surface:
`keyError` for indexing a missing key (Python `KeyError`),
`configError` for `exceptions.ConfigError`, and `otherError` for the
remaining Python failure modes (`AttributeError`/`TypeError` from using
a non-mapping where a mapping is required). -/
inductive Err where
  | keyError : Err
  | configError : Err
  | otherError : Err
deriving DecidableEq

/-- Python `d[k]` on a mapping, raising `KeyError` when absent. -/
def pyIndex (ps : List (String × Val)) (k : String) : Except Err Val :=
  match alookup ps k with
  | some v => .ok v
  | none => .error .keyError

/-- The git/CI collaborators consumed by the every-run tail of
`parse_config` (lines 421-427): `git.get_repo_sha/url/slug/branch/tag`,
`os.getenv("CI", "false")` and `os.getenv("GITHUB_RUN_ID", "")`. -/
structure GitInfo where
  sha : String
  url : String
  slug : String
  branch : String
  tag : String
  ciEnv : String
  runId : String

/-- Lines 428-436 of `parse_config`: ensure the per-branch cache record
exists (`{}` if absent) and default its `zenodo` and `sandbox` fields to
`None` without overwriting present values.  The argument is the value of
`config["cache"]`; `none` models the `AttributeError` of calling `.get`
on a non-mapping. -/
def ensure_branch_cache (cache : Val) (branch : String) : Option Val :=
  match cache with
  | .dict cps =>
    match (alookup cps branch).getD (.dict []) with
    | .dict ps =>
      let ps := pySet ps "zenodo" ((alookup ps "zenodo").getD .null)
      let ps := pySet ps "sandbox" ((alookup ps "sandbox").getD .null)
      some (.dict (pySet cps branch (.dict ps)))
    | .odict ps =>
      let ps := pySet ps "zenodo" ((alookup ps "zenodo").getD .null)
      let ps := pySet ps "sandbox" ((alookup ps "sandbox").getD .null)
      some (.dict (pySet cps branch (.odict ps)))
    | _ => none
  | _ => none

/-- The part of `parse_config` run on every invocation (config.py lines
420-458), i.e. the whole function when the main snakefile is not
`prep.smk`: record git/CI metadata, ensure the per-branch cache record,
and derive the stamp `text` and `version`.  `isDev` abstracts
`version.parse(__version__).is_devrelease` and `ver` abstracts
`__version__`. -/
def parse_config_main (git : GitInfo) (isDev : Bool) (ver : String)
    (config : List (String × Val)) : Except Err (List (String × Val)) := do
  let config := pySet config "git_sha" (.str git.sha)
  let config := pySet config "git_url" (.str git.url)
  let config := pySet config "git_slug" (.str git.slug)
  let config := pySet config "git_branch" (.str git.branch)
  let config := pySet config "github_actions" (.bool (git.ciEnv == "true"))
  let config := pySet config "github_runid" (.str git.runId)
  let config := pySet config "git_tag" (.str git.tag)
  let cacheV ← pyIndex config "cache"
  let config ← match ensure_branch_cache cacheV git.branch with
    | some cacheV' => pure (pySet config "cache" cacheV')
    | none => Except.error .otherError
  let stampV ← pyIndex config "stamp"
  let stampPs ← match stampV with
    | .dict ps => pure ps
    | _ => Except.error .otherError
  let urlV ← pyIndex stampPs "url"
  let urlPs ← match urlV with
    | .dict ps => pure ps
    | _ => Except.error .otherError
  let enabledV ← pyIndex urlPs "enabled"
  let stampPs ← if isFalsy enabledV then
      pure (pySet stampPs "text" (.str ""))
    else do
      let maxlenV ← pyIndex urlPs "maxlen"
      let maxlen ← match maxlenV with
        | .int n => pure n
        | _ => Except.error .otherError
      pure (pySet stampPs "text" (.str (stamp_text_of git.url maxlen)))
  let stampPs := pySet stampPs "version" (.str (if isDev then "dev" else ver))
  pure (pySet config "stamp" (.dict stampPs))

/-- Last binding of a key in a raw pair list: the value Python keeps when
the pairs are inserted into a dict left to right. -/
def mLast : List (String × Val) → String → Option Val
  | [], _ => none
  | p :: rest, k =>
    match mLast rest k with
    | some v => some v
    | none => if p.1 == k then some p.2 else none

/-- The keys of an association list, in order. -/
def keysL (ps : List (String × Val)) : List String :=
  ps.map Prod.fst

/-- The values of an association list. -/
def valsL (ps : List (String × Val)) : List Val :=
  ps.map Prod.snd

/-- Scalar values (neither sequences nor mappings). -/
def isScalar : Val → Bool
  | .null => true
  | .bool _ => true
  | .int _ => true
  | .str _ => true
  | _ => false

/-- The three concrete dependency maps of the spec's examples: a chain, a
diamond, and a self-loop. -/
def chainDeps : List (String × List String) :=
  [("a", ["b"]), ("b", ["c"]), ("c", [])]

/-- See `chainDeps`. -/
def diamondDeps : List (String × List String) :=
  [("a", ["b", "c"]), ("b", ["d"]), ("c", ["d"]), ("d", [])]

/-- See `chainDeps`. -/
def loopDeps : List (String × List String) :=
  [("a", ["a"])]

/-- A minimal configuration carrying the entries the every-run tail of
`parse_config` requires, with the URL stamp enabled. -/
def stampCfg (n : Int) : List (String × Val) :=
  [("cache", .dict []),
   ("stamp", .dict [("url", .dict [("enabled", .bool true), ("maxlen", .int n)])])]

/-- Lines 431-436 of `parse_config`: fill the `zenodo` and `sandbox`
fields of a per-branch cache record with `None` when absent, keeping
present values. -/
def cacheFill (ps : List (String × Val)) : List (String × Val) :=
  pySet (pySet ps "zenodo" ((alookup ps "zenodo").getD .null))
    "sandbox" ((alookup ps "sandbox").getD .null)

lemma alookup_nil (k : String) : alookup [] k = none := rfl

lemma keysL_cons (p : String × Val) (ps : List (String × Val)) :
    keysL (p :: ps) = p.1 :: keysL ps := rfl

lemma alookup_cons (p : String × Val) (ps : List (String × Val)) (k : String) :
    alookup (p :: ps) k = if p.1 = k then some p.2 else alookup ps k := by
  by_cases h : p.1 = k
  · simp [alookup, List.find?, h]
  · have hb : (p.1 == k) = false := beq_eq_false_iff_ne.mpr h
    simp [alookup, List.find?, hb, h]

lemma alookup_pySet (d : List (String × Val)) (k : String) (v : Val) (q : String) :
    alookup (pySet d k v) q = if q = k then some v else alookup d q := by
  induction d with
  | nil =>
    by_cases h : q = k
    · simp [pySet, alookup_cons, h]
    · have h2 : k ≠ q := fun hc => h hc.symm
      simp [pySet, alookup_cons, h, h2]
  | cons p rest ih =>
    by_cases hp : p.1 = k
    · simp only [pySet, hp, beq_self_eq_true, if_true]
      by_cases h : q = k
      · simp [alookup_cons, hp, h]
      · have h2 : p.1 ≠ q := by rw [hp]; exact fun hc => h hc.symm
        have h3 : ¬ k = q := fun hc => h hc.symm
        simp [alookup_cons, hp, h, h2, h3]
    · have hb : (p.1 == k) = false := beq_eq_false_iff_ne.mpr hp
      simp only [pySet, hb, Bool.false_eq_true, if_false]
      rw [alookup_cons, alookup_cons, ih]
      by_cases h : q = k
      · simp [h, hp]
      · simp [h]

lemma keysL_pySet_of_mem (d : List (String × Val)) (k : String) (v : Val)
    (h : k ∈ keysL d) : keysL (pySet d k v) = keysL d := by
  induction d with
  | nil => simp [keysL] at h
  | cons p rest ih =>
    by_cases hp : p.1 = k
    · simp [pySet, hp, keysL]
    · have hb : (p.1 == k) = false := beq_eq_false_iff_ne.mpr hp
      have hm : k ∈ keysL rest := by
        rw [keysL_cons] at h
        rcases List.mem_cons.mp h with h | h
        · exact absurd h.symm hp
        · exact h
      simp only [pySet, hb, Bool.false_eq_true, if_false]
      rw [keysL_cons, keysL_cons, ih hm]

lemma keysL_pySet_of_not_mem (d : List (String × Val)) (k : String) (v : Val)
    (h : k ∉ keysL d) : keysL (pySet d k v) = keysL d ++ [k] := by
  induction d with
  | nil => simp [pySet, keysL]
  | cons p rest ih =>
    have hp : p.1 ≠ k := by
      intro hc; exact h (by rw [keysL_cons, hc]; exact List.mem_cons_self _ _)
    have hb : (p.1 == k) = false := beq_eq_false_iff_ne.mpr hp
    have hm : k ∉ keysL rest := by
      intro hc; exact h (by rw [keysL_cons]; exact List.mem_cons_of_mem _ hc)
    simp only [pySet, hb, Bool.false_eq_true, if_false]
    rw [keysL_cons, keysL_cons, ih hm, List.cons_append]

lemma nodup_keysL_pySet (d : List (String × Val)) (k : String) (v : Val)
    (h : (keysL d).Nodup) : (keysL (pySet d k v)).Nodup := by
  by_cases hm : k ∈ keysL d
  · rw [keysL_pySet_of_mem d k v hm]; exact h
  · rw [keysL_pySet_of_not_mem d k v hm]
    simp [List.nodup_append, h, hm]

lemma pySet_append_of_not_mem (d : List (String × Val)) (k : String) (v : Val)
    (h : k ∉ keysL d) : pySet d k v = d ++ [(k, v)] := by
  induction d with
  | nil => simp [pySet]
  | cons p rest ih =>
    have hp : p.1 ≠ k := by
      intro hc; exact h (by simp [keysL, hc])
    have hb : (p.1 == k) = false := beq_eq_false_iff_ne.mpr hp
    have hm : k ∉ keysL rest := fun hc => h (by simp [keysL] at hc ⊢; exact Or.inr hc)
    simp only [pySet, hb, Bool.false_eq_true, if_false]
    simp [ih hm]

lemma nodup_keysL_foldl (m : List (String × Val)) :
    ∀ d : List (String × Val), (keysL d).Nodup →
      (keysL (m.foldl (fun d p => pySet d p.1 p.2) d)).Nodup := by
  induction m with
  | nil => intro d hd; simpa using hd
  | cons p rest ih =>
    intro d hd
    exact ih _ (nodup_keysL_pySet d p.1 p.2 hd)

lemma nodup_keysL_pyDict (m : List (String × Val)) : (keysL (pyDict m)).Nodup :=
  nodup_keysL_foldl m [] (by simp [keysL])

lemma foldl_pySet_of_nodup (m : List (String × Val)) :
    ∀ d : List (String × Val), (keysL (d ++ m)).Nodup →
      m.foldl (fun d p => pySet d p.1 p.2) d = d ++ m := by
  induction m with
  | nil => intro d _; simp
  | cons p rest ih =>
    intro d hd
    have hnotmem : p.1 ∉ keysL d := by
      have hsplit : (keysL d ++ p.1 :: keysL rest).Nodup := by
        simpa [keysL] using hd
      rw [List.nodup_append] at hsplit
      intro hc
      exact hsplit.2.2 hc (by simp)
    have hstep : pySet d p.1 p.2 = d ++ [(p.1, p.2)] :=
      pySet_append_of_not_mem d p.1 p.2 hnotmem
    have hnd : (keysL ((d ++ [(p.1, p.2)]) ++ rest)).Nodup := by
      simpa [keysL] using hd
    have hih := ih (d ++ [(p.1, p.2)]) hnd
    show rest.foldl (fun d p => pySet d p.1 p.2) (pySet d p.1 p.2) = d ++ p :: rest
    rw [hstep, hih]
    simp

lemma pyDict_of_nodup (m : List (String × Val)) (h : (keysL m).Nodup) :
    pyDict m = m := by
  have := foldl_pySet_of_nodup m [] (by simpa [keysL] using h)
  simpa [pyDict] using this

lemma pyDict_pyDict (m : List (String × Val)) : pyDict (pyDict m) = pyDict m :=
  pyDict_of_nodup (pyDict m) (nodup_keysL_pyDict m)

lemma oOr_some (v : α) (b : Option α) : oOr (some v) b = some v := rfl

lemma oOr_none (b : Option α) : oOr none b = b := rfl

lemma mLast_cons (p : String × Val) (rest : List (String × Val)) (k : String) :
    mLast (p :: rest) k =
      oOr (mLast rest k) (if p.1 == k then some p.2 else none) := by
  cases h : mLast rest k
  · show (match mLast rest k with
        | some v => some v
        | none => if p.1 == k then some p.2 else none) = _
    rw [h, oOr_none]
  · show (match mLast rest k with
        | some v => some v
        | none => if p.1 == k then some p.2 else none) = _
    rw [h, oOr_some]

lemma alookup_foldl_pySet (m : List (String × Val)) :
    ∀ (d : List (String × Val)) (k : String),
      alookup (m.foldl (fun d p => pySet d p.1 p.2) d) k =
        oOr (mLast m k) (alookup d k) := by
  induction m with
  | nil => intro d k; rw [List.foldl_nil]; rfl
  | cons p rest ih =>
    intro d k
    show alookup (rest.foldl (fun d p => pySet d p.1 p.2) (pySet d p.1 p.2)) k = _
    rw [ih (pySet d p.1 p.2) k, alookup_pySet, mLast_cons]
    cases hm : mLast rest k
    · rw [oOr_none, oOr_none]
      by_cases h : p.1 = k
      · have hb : (p.1 == k) = true := beq_iff_eq.mpr h
        rw [hb, if_pos (h.symm : k = p.1)]
        rfl
      · have hb : (p.1 == k) = false := beq_eq_false_iff_ne.mpr h
        have h2 : ¬ k = p.1 := fun hc => h hc.symm
        rw [hb, if_neg h2]
        rfl
    · rfl

lemma alookup_pyDict (m : List (String × Val)) (k : String) :
    alookup (pyDict m) k = mLast m k := by
  rw [pyDict, alookup_foldl_pySet, alookup_nil]
  cases h : mLast m k
  · rw [oOr_none]
  · rw [oOr_some]

lemma alookup_pyUpdate (d m : List (String × Val)) (k : String) :
    alookup (pyUpdate d m) k = oOr (mLast m k) (alookup d k) := by
  rw [pyUpdate, alookup_foldl_pySet]

lemma alookup_dictChainMap (ms : List (List (String × Val))) (k : String) :
    alookup (dictChainMap ms) k = firstSome ms (fun m => mLast m k) := by
  induction ms with
  | nil => rfl
  | cons m rest ih =>
    show alookup ((m :: rest).reverse.foldl pyUpdate []) k = _
    rw [List.reverse_cons, List.foldl_append]
    show alookup (pyUpdate (dictChainMap rest) m) k = _
    rw [alookup_pyUpdate, ih]
    rfl

lemma firstSome_map (l : List α) (g : α → β) (f : β → Option γ) :
    firstSome (l.map g) f = firstSome l (fun a => f (g a)) := by
  induction l with
  | nil => rfl
  | cons a rest ih =>
    show oOr (f (g a)) (firstSome (l := rest.map g) f) = _
    rw [ih]
    rfl

lemma mLast_pyDict (m : List (String × Val)) (k : String) :
    mLast (pyDict m) k = mLast m k := by
  rw [← alookup_pyDict, pyDict_pyDict, alookup_pyDict]

/-- Characterization of the ordered-mapping merge of `as_dict` (line
119): the merged mapping resolves every key to its binding in the
earliest ordered-mapping element of the list containing it. -/
lemma alookup_mergedOD (xs : List Val) (k : String) :
    alookup (mergedOD xs) k =
      firstSome (xs.filter isOD) (fun od => alookup (pyDict (odPairs od)) k) := by
  rw [mergedOD, alookup_dictChainMap, firstSome_map]
  congr 1
  funext od
  rw [mLast_pyDict, alookup_pyDict]

lemma normPairs_iff (g : Val → Except Unit Val) :
    ∀ (ps qs : List (String × Val)),
      normPairs g ps = .ok qs ↔
        List.Forall₂ (fun p q => p.1 = q.1 ∧ g p.2 = .ok q.2) ps qs := by
  intro ps
  induction ps with
  | nil =>
    intro qs
    constructor
    · intro h
      cases h
      exact List.Forall₂.nil
    · intro h
      cases h
      rfl
  | cons p rest ih =>
    intro qs
    constructor
    · intro h
      rcases p with ⟨k, v⟩
      simp only [normPairs] at h
      cases hv : g v with
      | error e => rw [hv] at h; cases h
      | ok v' =>
        rw [hv] at h
        cases hrest : normPairs g rest with
        | error e => rw [hrest] at h; cases h
        | ok rest' =>
          rw [hrest] at h
          cases h
          exact List.Forall₂.cons ⟨rfl, hv⟩ ((ih rest').mp hrest)
    · intro h
      cases h with
      | cons hpq hrest =>
        rcases p with ⟨k, v⟩
        rename_i q qs'
        simp only [normPairs]
        rw [hpq.2, (ih qs').mpr hrest]
        rcases q with ⟨k', v'⟩
        cases hpq.1
        rfl

lemma normPairs_fix (g : Val → Except Unit Val) (ps : List (String × Val))
    (h : ∀ p ∈ ps, g p.2 = .ok p.2) : normPairs g ps = .ok ps := by
  rw [normPairs_iff]
  induction ps with
  | nil => exact List.Forall₂.nil
  | cons p rest ih =>
    exact List.Forall₂.cons ⟨rfl, h p (List.mem_cons_self _ _)⟩
      (ih (fun q hq => h q (List.mem_cons_of_mem _ hq)))

lemma normPairs_ok_of (g : Val → Except Unit Val) (ps : List (String × Val))
    (h : ∀ p ∈ ps, ∃ v', g p.2 = .ok v') :
    ∃ qs, normPairs g ps = .ok qs := by
  induction ps with
  | nil => exact ⟨[], rfl⟩
  | cons p rest ih =>
    rcases h p (List.mem_cons_self _ _) with ⟨v', hv⟩
    rcases ih (fun q hq => h q (List.mem_cons_of_mem _ hq)) with ⟨qs, hqs⟩
    refine ⟨(p.1, v') :: qs, ?_⟩
    rcases p with ⟨k, v⟩
    simp only [normPairs]
    rw [hv, hqs]
    rfl

lemma valsL_cons (p : String × Val) (ps : List (String × Val)) :
    valsL (p :: ps) = p.2 :: valsL ps := rfl

lemma valsL_pySet (d : List (String × Val)) (k : String) (v : Val) :
    ∀ w ∈ valsL (pySet d k v), w ∈ valsL d ∨ w = v := by
  induction d with
  | nil =>
    intro w hw
    rw [show pySet [] k v = [(k, v)] from rfl, valsL_cons] at hw
    rcases List.mem_cons.mp hw with hw | hw
    · exact Or.inr hw
    · cases hw
  | cons p rest ih =>
    intro w hw
    by_cases hp : p.1 = k
    · have hb : (p.1 == k) = true := beq_iff_eq.mpr hp
      simp only [pySet, hb, if_true] at hw
      rw [valsL_cons] at hw
      rcases List.mem_cons.mp hw with hw | hw
      · exact Or.inr hw
      · exact Or.inl (by rw [valsL_cons]; exact List.mem_cons_of_mem _ hw)
    · have hb : (p.1 == k) = false := beq_eq_false_iff_ne.mpr hp
      simp only [pySet, hb, Bool.false_eq_true, if_false] at hw
      rw [valsL_cons] at hw
      rcases List.mem_cons.mp hw with hw | hw
      · exact Or.inl (by rw [valsL_cons, hw]; exact List.mem_cons_self _ _)
      · rcases ih w hw with h | h
        · exact Or.inl (by rw [valsL_cons]; exact List.mem_cons_of_mem _ h)
        · exact Or.inr h

lemma valsL_foldl_pySet (m : List (String × Val)) :
    ∀ (d : List (String × Val)) (w : Val),
      w ∈ valsL (m.foldl (fun d p => pySet d p.1 p.2) d) →
        w ∈ valsL d ∨ w ∈ valsL m := by
  induction m with
  | nil => intro d w hw; exact Or.inl hw
  | cons p rest ih =>
    intro d w hw
    rcases ih (pySet d p.1 p.2) w hw with h | h
    · rcases valsL_pySet d p.1 p.2 w h with h | h
      · exact Or.inl h
      · exact Or.inr (by rw [valsL_cons, h]; exact List.mem_cons_self _ _)
    · exact Or.inr (by rw [valsL_cons]; exact List.mem_cons_of_mem _ h)

lemma valsL_pyDict (m : List (String × Val)) (w : Val) (hw : w ∈ valsL (pyDict m)) :
    w ∈ valsL m := by
  rcases valsL_foldl_pySet m [] w hw with h | h
  · cases h
  · exact h

lemma valsL_dictChainMap (ms : List (List (String × Val))) (w : Val)
    (hw : w ∈ valsL (dictChainMap ms)) : ∃ m ∈ ms, w ∈ valsL m := by
  rw [dictChainMap] at hw
  have main : ∀ (l : List (List (String × Val))) (d : List (String × Val)),
      w ∈ valsL (l.foldl pyUpdate d) → w ∈ valsL d ∨ ∃ m ∈ l, w ∈ valsL m := by
    intro l
    induction l with
    | nil => intro d h; exact Or.inl h
    | cons m rest ih =>
      intro d h
      rcases ih (pyUpdate d m) h with h | h
      · rcases valsL_foldl_pySet m d w h with h | h
        · exact Or.inl h
        · exact Or.inr ⟨m, List.mem_cons_self _ _, h⟩
      · rcases h with ⟨m', hm', hw'⟩
        exact Or.inr ⟨m', List.mem_cons_of_mem _ hm', hw'⟩
  rcases main ms.reverse [] hw with h | h
  · cases h
  · rcases h with ⟨m, hm, hw'⟩
    exact ⟨m, List.mem_reverse.mp hm, hw'⟩

lemma mdepth_le_mdepthPairs (ps : List (String × Val)) (w : Val)
    (hw : w ∈ valsL ps) : mdepth w ≤ mdepthPairs ps := by
  induction ps with
  | nil => cases hw
  | cons p rest ih =>
    rw [valsL_cons] at hw
    rcases List.mem_cons.mp hw with hw | hw
    · rw [hw]
      simp [mdepthPairs]
    · calc mdepth w ≤ mdepthPairs rest := ih hw
        _ ≤ _ := by simp [mdepthPairs]

lemma mdepth_le_mdepthList (xs : List Val) (w : Val) (hw : w ∈ xs) :
    mdepth w ≤ mdepthList xs := by
  induction xs with
  | nil => cases hw
  | cons x rest ih =>
    rcases List.mem_cons.mp hw with hw | hw
    · rw [hw]
      simp [mdepthList]
    · calc mdepth w ≤ mdepthList rest := ih hw
        _ ≤ _ := by simp [mdepthList]

/-- Every value of a mapping produced by the reshaping step of `as_dict`
sits strictly below the original value in mapping-nesting depth. -/
lemma mdepth_listStep_dict (x : Val) (ps : List (String × Val))
    (h : listStep x = .dict ps) :
    ∀ w ∈ valsL ps, mdepth w < mdepth x := by
  intro w hw
  cases x with
  | list xs =>
    simp only [listStep] at h
    cases hz : (xs.filter (fun v => !(isOD v))).isEmpty with
    | true =>
      rw [hz] at h
      simp at h
      rw [← h] at hw
      rcases valsL_dictChainMap _ w hw with ⟨m, hm, hwm⟩
      rcases List.mem_map.mp hm with ⟨od, hod, hodm⟩
      have hval : w ∈ valsL (odPairs od) := valsL_pyDict _ w (hodm ▸ hwm)
      have hisod : isOD od = true := List.of_mem_filter hod
      cases od with
      | odict ps1 =>
        have h1 : mdepth w ≤ mdepthPairs ps1 := mdepth_le_mdepthPairs ps1 w hval
        have h2 : mdepth (Val.odict ps1) = 1 + mdepthPairs ps1 := by simp [mdepth]
        have h3 : mdepth (Val.odict ps1) ≤ mdepthList xs :=
          mdepth_le_mdepthList xs _ (List.mem_of_mem_filter hod)
        have h4 : mdepth (Val.list xs) = mdepthList xs := by simp [mdepth]
        omega
      | null => cases hisod
      | bool b => cases hisod
      | int n => cases hisod
      | str s => cases hisod
      | list l => cases hisod
      | dict d => cases hisod
    | false =>
      rw [hz] at h
      simp only [Bool.not_false, if_true] at h
      cases hy : (mergedOD xs).isEmpty with
      | true => rw [hy] at h; simp at h
      | false => rw [hy] at h; simp at h
  | odict ps0 =>
    simp only [listStep] at h
    simp at h
    rw [← h] at hw
    have hval : w ∈ valsL ps0 := valsL_pyDict ps0 w hw
    have h1 : mdepth w ≤ mdepthPairs ps0 := mdepth_le_mdepthPairs ps0 w hval
    have h2 : mdepth (Val.odict ps0) = 1 + mdepthPairs ps0 := by simp [mdepth]
    omega
  | dict ps0 =>
    simp only [listStep] at h
    simp at h
    rw [← h] at hw
    have h1 : mdepth w ≤ mdepthPairs ps0 := mdepth_le_mdepthPairs ps0 w hw
    have h2 : mdepth (Val.dict ps0) = 1 + mdepthPairs ps0 := by simp [mdepth]
    omega
  | null => cases h
  | bool b => cases h
  | int n => cases h
  | str s => cases h

/-- A list produced by the reshaping step of `as_dict` is nonempty and
free of ordered-mapping elements at its top level. -/
lemma listStep_list (x : Val) (elems : List Val) (h : listStep x = .list elems) :
    elems ≠ [] ∧ ∀ e ∈ elems, isOD e = false := by
  cases x with
  | list xs =>
    simp only [listStep] at h
    have hmem : ∀ e ∈ xs.filter (fun v => !(isOD v)), isOD e = false := by
      intro e he
      have := List.of_mem_filter he
      simpa using this
    cases hz : (xs.filter (fun v => !(isOD v))).isEmpty with
    | true =>
      rw [hz] at h
      simp at h
    | false =>
      rw [hz] at h
      simp only [Bool.not_false, if_true] at h
      cases hy : (mergedOD xs).isEmpty with
      | true =>
        rw [hy] at h
        simp at h
        subst h
        refine ⟨fun hc => by rw [hc] at hz; simp at hz, hmem⟩
      | false =>
        rw [hy] at h
        simp only [Bool.not_false, if_true] at h
        have helems : elems = .dict (mergedOD xs) :: xs.filter (fun v => !(isOD v)) := by
          cases h
          rfl
        subst helems
        refine ⟨by simp, ?_⟩
        intro e he
        rcases List.mem_cons.mp he with he | he
        · rw [he]; rfl
        · exact hmem e he
  | odict ps0 => simp [listStep] at h
  | dict ps0 => cases h
  | null => cases h
  | bool b => cases h
  | int n => cases h
  | str s => cases h

/-- The reshaping step never yields an ordered mapping. -/
lemma listStep_ne_odict (x : Val) (ps : List (String × Val)) :
    listStep x ≠ .odict ps := by
  cases x with
  | list xs =>
    simp only [listStep]
    cases hz : (xs.filter (fun v => !(isOD v))).isEmpty with
    | true => simp
    | false =>
      simp only [Bool.not_false, if_true]
      cases hy : (mergedOD xs).isEmpty with
      | true => simp
      | false => simp
  | odict ps0 => simp [listStep]
  | dict ps0 => simp [listStep]
  | null => simp [listStep]
  | bool b => simp [listStep]
  | int n => simp [listStep]
  | str s => simp [listStep]

lemma listStep_scalar (x y : Val) (h : listStep x = y) (hs : isScalar y = true) :
    x = y := by
  cases x with
  | null => exact h
  | bool b => exact h
  | int n => exact h
  | str s => exact h
  | odict ps0 =>
    rw [show listStep (Val.odict ps0) = .dict (pyDict ps0) from rfl] at h
    rw [← h] at hs
    cases hs
  | dict ps0 =>
    rw [show listStep (Val.dict ps0) = .dict ps0 from rfl] at h
    rw [← h] at hs
    cases hs
  | list xs =>
    simp only [listStep] at h
    cases hz : (xs.filter (fun v => !(isOD v))).isEmpty with
    | true =>
      rw [hz] at h
      simp at h
      rw [← h] at hs
      cases hs
    | false =>
      rw [hz] at h
      simp only [Bool.not_false, if_true] at h
      cases hy : (mergedOD xs).isEmpty with
      | true =>
        rw [hy] at h
        simp at h
        rw [← h] at hs
        cases hs
      | false =>
        rw [hy] at h
        simp only [Bool.not_false, if_true] at h
        rw [← h] at hs
        cases hs

lemma listStep_fix_list (elems : List Val) (hne : elems ≠ [])
    (hod : ∀ e ∈ elems, isOD e = false) :
    listStep (.list elems) = .list elems := by
  have hfilter : elems.filter (fun v => !(isOD v)) = elems := by
    apply List.filter_eq_self.mpr
    intro e he
    rw [hod e he]
    rfl
  have hfilter2 : elems.filter isOD = [] := by
    apply List.filter_eq_nil_iff.mpr
    intro e he
    rw [hod e he]
    exact Bool.false_ne_true
  have hy : mergedOD elems = [] := by
    rw [mergedOD, hfilter2]
    rfl
  simp only [listStep, hfilter, hy]
  have hne2 : elems.isEmpty = false := by
    cases elems with
    | nil => exact absurd rfl hne
    | cons e rest => rfl
  rw [hne2]
  rfl

lemma forall2_right_mem {R : α → β → Prop} {l₁ : List α} {l₂ : List β}
    (h : List.Forall₂ R l₁ l₂) : ∀ b ∈ l₂, ∃ a ∈ l₁, R a b := by
  induction h with
  | nil => intro b hb; cases hb
  | cons hab hrest ih =>
    intro b hb
    rcases List.mem_cons.mp hb with hb | hb
    · exact ⟨_, List.mem_cons_self _ _, hb ▸ hab⟩
    · rcases ih b hb with ⟨a, ha, hr⟩
      exact ⟨a, List.mem_cons_of_mem _ ha, hr⟩

lemma isFalsy_dict (ps : List (String × Val)) (h : isFalsy (.dict ps) = true) :
    ps = [] := by
  cases ps with
  | nil => rfl
  | cons p rest => cases h

lemma exceptMap_ok {e : Except Unit (List (String × Val))}
    {g : List (String × Val) → Val} {y : Val} (h : e.map g = .ok y) :
    ∃ a, e = .ok a ∧ y = g a := by
  cases e with
  | error err => cases h
  | ok a =>
    refine ⟨a, rfl, ?_⟩
    cases h
    rfl

lemma exceptOkBind {ε α β : Type} (a : α) (f : α → Except ε β) :
    (Except.ok a >>= f) = f a := rfl

lemma exceptErrBind {ε α β : Type} (e : ε) (f : α → Except ε β) :
    ((Except.error e : Except ε α) >>= f) = Except.error e := rfl

lemma as_dictF_zero (x : Val) (d m : Nat) :
    as_dictF 0 x d m =
      if d == 0 && isFalsy x then .ok (.dict []) else .error () := rfl

lemma as_dictF_succ (n : Nat) (x : Val) (d m : Nat) :
    as_dictF (n + 1) x d m =
      if d == 0 && isFalsy x then .ok (.dict [])
      else if m < d then .error ()
      else
        match listStep x with
        | .dict ps => (normPairs (fun v => as_dictF n v (d + 1) 30) ps).map Val.dict
        | other => .ok other := rfl

/-- Normalization is a fixed point on its own output, fuel and depth
being equal: the key step behind idempotence of `as_dict`. -/
lemma as_dictF_idem : ∀ (f : Nat) (d : Nat) (x y : Val),
    as_dictF f x d 30 = .ok y → as_dictF f y d 30 = .ok y := by
  intro f
  induction f with
  | zero =>
    intro d x y h
    rw [as_dictF_zero] at h
    cases hc : (d == 0 && isFalsy x) with
    | false => rw [hc] at h; cases h
    | true =>
      rw [hc] at h
      simp only [if_true] at h
      cases h
      rw [as_dictF_zero]
      rw [Bool.and_eq_true] at hc
      rw [hc.1]
      rfl
  | succ n ih =>
    intro d x y h
    rw [as_dictF_succ] at h
    cases hc : (d == 0 && isFalsy x) with
    | true =>
      rw [hc] at h
      simp only [if_true] at h
      cases h
      rw [as_dictF_succ]
      rw [Bool.and_eq_true] at hc
      rw [hc.1]
      rfl
    | false =>
      rw [hc] at h
      simp only [Bool.false_eq_true, if_false] at h
      by_cases hdd : (30 : Nat) < d
      · rw [if_pos hdd] at h; cases h
      · rw [if_neg hdd] at h
        have hc0 : (d == 0) = false → (d == 0 && isFalsy y) = false := by
          intro h0; rw [h0]; rfl
        cases hls : listStep x with
        | dict ps =>
          rw [hls] at h
          rcases exceptMap_ok h with ⟨ps', hnp, hy⟩
          subst hy
          have hf := (normPairs_iff _ ps ps').mp hnp
          rw [as_dictF_succ]
          cases hc2 : (d == 0 && isFalsy (Val.dict ps')) with
          | true =>
            rw [Bool.and_eq_true] at hc2
            have hps' : ps' = [] := isFalsy_dict ps' hc2.2
            subst hps'
            rfl
          | false =>
            simp only [Bool.false_eq_true, if_false, if_neg hdd]
            have hfix : normPairs (fun v => as_dictF n v (d + 1) 30) ps' = .ok ps' := by
              apply normPairs_fix
              intro q hq
              rcases forall2_right_mem hf q hq with ⟨p, hp, _, hgp⟩
              exact ih (d + 1) p.2 q.2 hgp
            show Except.map Val.dict (normPairs (fun v => as_dictF n v (d + 1) 30) ps') =
              Except.ok (Val.dict ps')
            rw [hfix]
            rfl
        | list elems =>
          rw [hls] at h
          cases h
          rcases listStep_list x elems hls with ⟨hne, hod⟩
          rw [as_dictF_succ]
          have hfalsy : isFalsy (Val.list elems) = false := by
            cases elems with
            | nil => exact absurd rfl hne
            | cons e rest => rfl
          rw [hfalsy, Bool.and_false, if_neg hdd]
          rw [listStep_fix_list elems hne hod]
          rfl
        | odict ps => exact absurd hls (listStep_ne_odict x ps)
        | null =>
          rw [hls] at h
          cases h
          have hx : x = .null := listStep_scalar x .null hls rfl
          subst hx
          rw [as_dictF_succ, hc, if_neg hdd]
          rfl
        | bool b =>
          rw [hls] at h
          cases h
          have hx : x = .bool b := listStep_scalar x (.bool b) hls rfl
          subst hx
          rw [as_dictF_succ, hc, if_neg hdd]
          rfl
        | int i =>
          rw [hls] at h
          cases h
          have hx : x = .int i := listStep_scalar x (.int i) hls rfl
          subst hx
          rw [as_dictF_succ, hc, if_neg hdd]
          rfl
        | str s =>
          rw [hls] at h
          cases h
          have hx : x = .str s := listStep_scalar x (.str s) hls rfl
          subst hx
          rw [as_dictF_succ, hc, if_neg hdd]
          rfl

/-- `as_dict` cannot fail on a value whose mapping nesting leaves the
depth guard unreachable: at depth `d` with fuel beyond `30 - d`, any
value of mapping-nesting depth at most `30 - d` normalizes without
error. -/
lemma as_dictF_ok_of_depth : ∀ (f d : Nat) (x : Val),
    d + mdepth x ≤ 30 → 30 < f + d → ∃ y, as_dictF f x d 30 = .ok y := by
  intro f
  induction f with
  | zero => intro d x hdep hfuel; omega
  | succ n ih =>
    intro d x hdep hfuel
    have hdd : ¬ (30 : Nat) < d := by omega
    cases hc : (d == 0 && isFalsy x) with
    | true => exact ⟨.dict [], by rw [as_dictF_succ, hc]; rfl⟩
    | false =>
      cases hls : listStep x with
      | dict ps =>
        have hvals : ∀ p ∈ ps, ∃ v', as_dictF n p.2 (d + 1) 30 = .ok v' := by
          intro p hp
          have hmem : p.2 ∈ valsL ps := List.mem_map_of_mem Prod.snd hp
          have hlt : mdepth p.2 < mdepth x := mdepth_listStep_dict x ps hls p.2 hmem
          exact ih (d + 1) p.2 (by omega) (by omega)
        rcases normPairs_ok_of (fun v => as_dictF n v (d + 1) 30) ps hvals with ⟨qs, hqs⟩
        refine ⟨.dict qs, ?_⟩
        rw [as_dictF_succ, hc]
        simp only [Bool.false_eq_true, if_false]
        rw [if_neg hdd, hls]
        show Except.map Val.dict (normPairs (fun v => as_dictF n v (d + 1) 30) ps) = _
        rw [hqs]
        rfl
      | odict ps => exact absurd hls (listStep_ne_odict x ps)
      | list elems =>
        refine ⟨.list elems, ?_⟩
        rw [as_dictF_succ, hc]
        simp only [Bool.false_eq_true, if_false]
        rw [if_neg hdd, hls]
      | null =>
        refine ⟨.null, ?_⟩
        rw [as_dictF_succ, hc]
        simp only [Bool.false_eq_true, if_false]
        rw [if_neg hdd, hls]
      | bool b =>
        refine ⟨.bool b, ?_⟩
        rw [as_dictF_succ, hc]
        simp only [Bool.false_eq_true, if_false]
        rw [if_neg hdd, hls]
      | int i =>
        refine ⟨.int i, ?_⟩
        rw [as_dictF_succ, hc]
        simp only [Bool.false_eq_true, if_false]
        rw [if_neg hdd, hls]
      | str s =>
        refine ⟨.str s, ?_⟩
        rw [as_dictF_succ, hc]
        simp only [Bool.false_eq_true, if_false]
        rw [if_neg hdd, hls]

lemma hasShallowODPairs_false (qs : List (String × Val))
    (h : ∀ q ∈ qs, hasShallowOD q.2 = false) : hasShallowODPairs qs = false := by
  induction qs with
  | nil => simp [hasShallowODPairs]
  | cons q rest ih =>
    have h1 := h q (List.mem_cons_self _ _)
    have h2 := ih (fun p hp => h p (List.mem_cons_of_mem _ hp))
    simp [hasShallowODPairs, h1, h2]

/-- Every successful output of `as_dict` is free of ordered mappings at
its top level and below plain-mapping values (ordered mappings can only
survive inside elements of result sequences). -/
lemma as_dictF_shallow : ∀ (f d : Nat) (x y : Val),
    as_dictF f x d 30 = .ok y → hasShallowOD y = false := by
  intro f
  induction f with
  | zero =>
    intro d x y h
    rw [as_dictF_zero] at h
    cases hc : (d == 0 && isFalsy x) with
    | false => rw [hc] at h; cases h
    | true =>
      rw [hc] at h
      simp only [if_true] at h
      cases h
      simp [hasShallowOD, hasShallowODPairs]
  | succ n ih =>
    intro d x y h
    rw [as_dictF_succ] at h
    cases hc : (d == 0 && isFalsy x) with
    | true =>
      rw [hc] at h
      simp only [if_true] at h
      cases h
      simp [hasShallowOD, hasShallowODPairs]
    | false =>
      rw [hc] at h
      simp only [Bool.false_eq_true, if_false] at h
      by_cases hdd : (30 : Nat) < d
      · rw [if_pos hdd] at h; cases h
      · rw [if_neg hdd] at h
        cases hls : listStep x with
        | dict ps =>
          rw [hls] at h
          rcases exceptMap_ok h with ⟨qs, hnp, hy⟩
          subst hy
          have hf := (normPairs_iff _ ps qs).mp hnp
          have hvals : ∀ q ∈ qs, hasShallowOD q.2 = false := by
            intro q hq
            rcases forall2_right_mem hf q hq with ⟨p, hp, _, hgp⟩
            exact ih (d + 1) p.2 q.2 hgp
          simp [hasShallowOD, hasShallowODPairs_false qs hvals]
        | odict ps => exact absurd hls (listStep_ne_odict x ps)
        | list elems =>
          rw [hls] at h
          cases h
          simp [hasShallowOD]
        | null =>
          rw [hls] at h
          cases h
          simp [hasShallowOD]
        | bool b =>
          rw [hls] at h
          cases h
          simp [hasShallowOD]
        | int i =>
          rw [hls] at h
          cases h
          simp [hasShallowOD]
        | str s =>
          rw [hls] at h
          cases h
          simp [hasShallowOD]

lemma gud_zero (x : String) (deps : List (String × List String)) :
    gud 0 x deps = none := rfl

lemma gud_succ (f : Nat) (x : String) (deps : List (String × List String)) :
    gud (f + 1) x deps = gudList (fun d => gud f d deps) (lookupDeps deps x) := rfl

lemma gudList_sub (g : String → Option (Finset String)) :
    ∀ (l : List String) (s : Finset String), gudList g l = some s →
      ∀ d ∈ l, ∃ sd, g d = some sd ∧ d ∈ s ∧ sd ⊆ s := by
  intro l
  induction l with
  | nil => intro s _ d hd; cases hd
  | cons a rest ih =>
    intro s h d hd
    simp only [gudList] at h
    cases hga : g a with
    | none => rw [hga] at h; cases h
    | some sa =>
      rw [hga] at h
      cases hrest : gudList g rest with
      | none => rw [hrest] at h; cases h
      | some t =>
        rw [hrest] at h
        cases h
        rcases List.mem_cons.mp hd with hd | hd
        · subst hd
          exact ⟨sa, hga, Finset.mem_insert_self _ _,
            fun z hz => Finset.mem_insert_of_mem (Finset.mem_union_left _ hz)⟩
        · rcases ih t hrest d hd with ⟨sd, hgd, hds, hsub⟩
          exact ⟨sd, hgd, Finset.mem_insert_of_mem (Finset.mem_union_right _ hds),
            fun z hz => Finset.mem_insert_of_mem (Finset.mem_union_right _ (hsub hz))⟩

lemma gudList_mem_cases (g : String → Option (Finset String)) :
    ∀ (l : List String) (s : Finset String), gudList g l = some s →
      ∀ y ∈ s, ∃ d ∈ l, y = d ∨ ∃ sd, g d = some sd ∧ y ∈ sd := by
  intro l
  induction l with
  | nil =>
    intro s h y hy
    cases h
    cases hy
  | cons a rest ih =>
    intro s h y hy
    simp only [gudList] at h
    cases hga : g a with
    | none => rw [hga] at h; cases h
    | some sa =>
      rw [hga] at h
      cases hrest : gudList g rest with
      | none => rw [hrest] at h; cases h
      | some t =>
        rw [hrest] at h
        cases h
        rcases Finset.mem_insert.mp hy with hy | hy
        · exact ⟨a, List.mem_cons_self _ _, Or.inl hy⟩
        · rcases Finset.mem_union.mp hy with hy | hy
          · exact ⟨a, List.mem_cons_self _ _, Or.inr ⟨sa, hga, hy⟩⟩
          · rcases ih t hrest y hy with ⟨d, hd, hcase⟩
            exact ⟨d, List.mem_cons_of_mem _ hd, hcase⟩

lemma gudList_mono (g g' : String → Option (Finset String)) :
    ∀ (l : List String),
      (∀ d ∈ l, ∀ sd, g d = some sd → g' d = some sd) →
      ∀ s, gudList g l = some s → gudList g' l = some s := by
  intro l
  induction l with
  | nil => intro _ s h; exact h
  | cons a rest ih =>
    intro hpt s h
    simp only [gudList] at h ⊢
    cases hga : g a with
    | none => rw [hga] at h; cases h
    | some sa =>
      rw [hga] at h
      cases hrest : gudList g rest with
      | none => rw [hrest] at h; cases h
      | some t =>
        rw [hrest] at h
        rw [hpt a (List.mem_cons_self _ _) sa hga,
          ih (fun d hd => hpt d (List.mem_cons_of_mem _ hd)) t hrest]
        exact h

lemma gudList_some (g : String → Option (Finset String)) :
    ∀ (l : List String), (∀ d ∈ l, ∃ sd, g d = some sd) →
      ∃ s, gudList g l = some s := by
  intro l
  induction l with
  | nil => intro _; exact ⟨∅, rfl⟩
  | cons a rest ih =>
    intro h
    rcases h a (List.mem_cons_self _ _) with ⟨sa, hga⟩
    rcases ih (fun d hd => h d (List.mem_cons_of_mem _ hd)) with ⟨t, ht⟩
    refine ⟨insert a (sa ∪ t), ?_⟩
    simp only [gudList]
    rw [hga, ht]

lemma gudList_none (g : String → Option (Finset String)) :
    ∀ (l : List String) (d : String), d ∈ l → g d = none →
      gudList g l = none := by
  intro l
  induction l with
  | nil => intro d hd _; cases hd
  | cons a rest ih =>
    intro d hd hn
    simp only [gudList]
    rcases List.mem_cons.mp hd with hd | hd
    · subst hd
      rw [hn]
    · rw [ih d hd hn]
      cases g a <;> rfl

lemma gud_mono (deps : List (String × List String)) :
    ∀ (f : Nat) (x : String) (s : Finset String),
      gud f x deps = some s → gud (f + 1) x deps = some s := by
  intro f
  induction f with
  | zero => intro x s h; cases h
  | succ n ih =>
    intro x s h
    rw [gud_succ] at h ⊢
    exact gudList_mono _ _ _ (fun d _ sd hsd => ih d sd hsd) s h

lemma gud_le (deps : List (String × List String)) (f f' : Nat) (hle : f ≤ f') :
    ∀ (x : String) (s : Finset String),
      gud f x deps = some s → gud f' x deps = some s := by
  induction f' with
  | zero =>
    intro x s h
    have : f = 0 := Nat.le_zero.mp hle
    subst this
    exact h
  | succ n ih =>
    intro x s h
    rcases Nat.lt_or_ge f (n + 1) with hlt | hge
    · exact gud_mono deps n x s (ih (Nat.lt_succ_iff.mp hlt) x s h)
    · have : f = n + 1 := Nat.le_antisymm hle hge
      subst this
      exact h

lemma reaches_trans_edge (deps : List (String × List String)) (a b c : String)
    (h : Reaches deps a b) (e : Edge deps b c) : Reaches deps a c := by
  induction h with
  | single e0 => exact Reaches.head e0 (Reaches.single e)
  | head e0 _ ih => exact Reaches.head e0 (ih e)

lemma gud_sound (deps : List (String × List String)) :
    ∀ (f : Nat) (x : String) (s : Finset String), gud f x deps = some s →
      ∀ y ∈ s, Reaches deps x y := by
  intro f
  induction f with
  | zero => intro x s h; cases h
  | succ n ih =>
    intro x s h y hy
    rw [gud_succ] at h
    rcases gudList_mem_cases _ _ s h y hy with ⟨d, hd, hcase⟩
    rcases hcase with hcase | ⟨sd, hgd, hysd⟩
    · subst hcase
      exact Reaches.single hd
    · exact Reaches.head hd (ih d sd hgd y hysd)

lemma gud_complete (deps : List (String × List String)) (x y : String)
    (hr : Reaches deps x y) :
    ∀ (f : Nat) (s : Finset String), gud f x deps = some s → y ∈ s := by
  induction hr with
  | single e =>
    intro f s h
    cases f with
    | zero => cases h
    | succ n =>
      rw [gud_succ] at h
      rcases gudList_sub _ _ s h _ e with ⟨sd, _, hmem, _⟩
      exact hmem
  | head e _ ih =>
    intro f s h
    cases f with
    | zero => cases h
    | succ n =>
      rw [gud_succ] at h
      rcases gudList_sub _ _ s h _ e with ⟨sd, hgd, _, hsub⟩
      exact hsub (ih n sd hgd)

lemma mem_keysOf_of_lookup (deps : List (String × List String)) (x : String)
    (h : lookupDeps deps x ≠ []) : x ∈ keysOf deps := by
  rw [lookupDeps] at h
  cases hf : deps.find? (fun p => p.1 == x) with
  | none => rw [hf] at h; exact absurd rfl h
  | some p =>
    have hmem := List.mem_of_find?_eq_some hf
    have hpred := List.find?_some hf
    have hx : p.1 = x := beq_iff_eq.mp hpred
    rw [keysOf, List.mem_toFinset]
    exact hx ▸ List.mem_map_of_mem Prod.fst hmem

lemma gud_total (deps : List (String × List String)) (hA : Acyclic deps) :
    ∀ (allowed : Finset String), ∀ (x : String),
      (∀ k, k ∈ keysOf deps → (x = k ∨ Reaches deps x k) → k ∈ allowed) →
      ∃ s, gud (allowed.card + 1) x deps = some s := by
  intro allowed
  induction allowed using Finset.strongInduction with
  | _ allowed ih =>
    intro x hx
    rw [gud_succ]
    cases hds : lookupDeps deps x with
    | nil => exact ⟨∅, rfl⟩
    | cons d0 rest =>
      have hxk : x ∈ keysOf deps :=
        mem_keysOf_of_lookup deps x (by rw [hds]; exact List.cons_ne_nil _ _)
      have hxa : x ∈ allowed := hx x hxk (Or.inl rfl)
      have hcard : (allowed.erase x).card + 1 = allowed.card :=
        Finset.card_erase_add_one hxa
      have hsome : ∀ d ∈ lookupDeps deps x, ∃ sd, gud allowed.card d deps = some sd := by
        intro d hd
        have hedge : Edge deps x d := hd
        have hcond : ∀ k, k ∈ keysOf deps → (d = k ∨ Reaches deps d k) →
            k ∈ allowed.erase x := by
          intro k hk hreach
          have hrk : Reaches deps x k := by
            rcases hreach with hreach | hreach
            · exact hreach ▸ Reaches.single hedge
            · exact Reaches.head hedge hreach
          have hka : k ∈ allowed := hx k hk (Or.inr hrk)
          have hkx : k ≠ x := by
            intro hc
            apply hA x
            rcases hreach with hreach | hreach
            · have hdx : d = x := hreach.trans hc
              rw [hdx] at hedge
              exact Reaches.single hedge
            · have hrx : Reaches deps d x := hc ▸ hreach
              exact Reaches.head hedge hrx
          exact Finset.mem_erase.mpr ⟨hkx, hka⟩
        rcases ih (allowed.erase x) (Finset.erase_ssubset hxa) d hcond with ⟨sd, hsd⟩
        rw [hcard] at hsd
        exact ⟨sd, hsd⟩
      rw [← hds] at *
      rcases gudList_some (fun d => gud allowed.card d deps) (lookupDeps deps x) hsome
        with ⟨s, hs⟩
      exact ⟨s, hs⟩

lemma gud_none_of_cycle (deps : List (String × List String)) :
    ∀ (f : Nat) (x : String), Reaches deps x x → gud f x deps = none := by
  intro f
  induction f with
  | zero => intro x _; rfl
  | succ n ih =>
    intro x hr
    rw [gud_succ]
    have hd : ∃ d ∈ lookupDeps deps x, Reaches deps d d := by
      have hr2 := hr
      cases hr with
      | single e => exact ⟨x, e, hr2⟩
      | head e r => exact ⟨_, e, reaches_trans_edge deps _ x _ r e⟩
    rcases hd with ⟨d, hd, hdd⟩
    exact gudList_none _ _ d hd (ih d hdd)

/-- An edge-monotone measure witnesses acyclicity. -/
lemma acyclic_of_measure (deps : List (String × List String)) (m : String → Nat)
    (h : ∀ x y, Edge deps x y → m x < m y) : Acyclic deps := by
  intro x hx
  have hmono : ∀ a b, Reaches deps a b → m a < m b := by
    intro a b hr
    induction hr with
    | single e => exact h _ _ e
    | head e _ ih => exact lt_trans (h _ _ e) ih
  exact absurd (hmono x x hx) (lt_irrefl _)

lemma parse_overleaf_push_bad (r : Val → Option String) (ov : List (String × Val))
    (v : Val) (hv : alookup ov "push" = some v) (hnl : isList v = false)
    (hnn : v ≠ .null) : parse_overleaf r ov = .error () := by
  simp only [parse_overleaf]
  simp only [alookup_pySet]
  simp [hv]
  cases v with
  | null => exact absurd rfl hnn
  | list l => simp [isList] at hnl
  | bool b => rfl
  | int n => rfl
  | str s => rfl
  | dict ps => rfl
  | odict ps => rfl

lemma parse_overleaf_pull_bad (r : Val → Option String) (ov : List (String × Val))
    (w : Val) (hw : alookup ov "pull" = some w) (hnl : isList w = false)
    (hnn : w ≠ .null) : parse_overleaf r ov = .error () := by
  simp only [parse_overleaf]
  simp only [alookup_pySet]
  simp
  cases hpv : alookup ov "push" with
  | none =>
    simp [alookup_pySet, hw]
    cases w with
    | null => exact absurd rfl hnn
    | list l => simp [isList] at hnl
    | bool b => rfl
    | int n => rfl
    | str s => rfl
    | dict ps => rfl
    | odict ps => rfl
  | some v =>
    cases v with
    | null =>
      simp [alookup_pySet, hw]
      cases w with
      | null => exact absurd rfl hnn
      | list l => simp [isList] at hnl
      | bool b => rfl
      | int n => rfl
      | str s => rfl
      | dict ps => rfl
      | odict ps => rfl
    | list l0 =>
      simp [alookup_pySet, hw]
      cases w with
      | null => exact absurd rfl hnn
      | list l => simp [isList] at hnl
      | bool b => rfl
      | int n => rfl
      | str s => rfl
      | dict ps => rfl
      | odict ps => rfl
    | bool b => rfl
    | int n => rfl
    | str s => rfl
    | dict ps => rfl
    | odict ps => rfl

lemma exceptPureBind {ε α β : Type} (a : α) (f : α → Except ε β) :
    ((pure a : Except ε α) >>= f) = f a := rfl

lemma parse_overleaf_push_default (r : Val → Option String)
    (ov ov' : List (String × Val)) (h : parse_overleaf r ov = .ok ov')
    (habs : alookup ov "push" = none ∨ alookup ov "push" = some .null) :
    alookup ov' "push" = some (.list []) := by
  rcases habs with hpv | hpv
  · simp only [parse_overleaf] at h
    simp only [alookup_pySet] at h
    simp [alookup_pySet, hpv, exceptPureBind, exceptOkBind, exceptErrBind] at h
    cases hqv : alookup ov "pull" with
    | none =>
      rw [hqv] at h
      simp [alookup_pySet] at h
      injection h with h2
      subst h2
      simp [alookup_pySet]
    | some w =>
      rw [hqv] at h
      cases w with
      | null =>
        simp [alookup_pySet] at h
        injection h with h2
        subst h2
        simp [alookup_pySet]
      | list l =>
        simp [alookup_pySet] at h
        split at h
        · cases h
        · try split at h
          all_goals try (injection h with h2; subst h2)
          all_goals simp [alookup_pySet]
      | bool b => simp at h
      | int n => simp at h
      | str s => simp at h
      | dict ps => simp at h
      | odict ps => simp at h
  · simp only [parse_overleaf] at h
    simp only [alookup_pySet] at h
    simp [alookup_pySet, hpv, exceptPureBind, exceptOkBind, exceptErrBind] at h
    cases hqv : alookup ov "pull" with
    | none =>
      rw [hqv] at h
      simp [alookup_pySet] at h
      injection h with h2
      subst h2
      simp [alookup_pySet]
    | some w =>
      rw [hqv] at h
      cases w with
      | null =>
        simp [alookup_pySet] at h
        injection h with h2
        subst h2
        simp [alookup_pySet]
      | list l =>
        simp [alookup_pySet] at h
        split at h
        · cases h
        · try split at h
          all_goals try (injection h with h2; subst h2)
          all_goals simp [alookup_pySet]
      | bool b => simp at h
      | int n => simp at h
      | str s => simp at h
      | dict ps => simp at h
      | odict ps => simp at h

lemma parse_overleaf_pull_default (r : Val → Option String)
    (ov ov' : List (String × Val)) (h : parse_overleaf r ov = .ok ov')
    (habs : alookup ov "pull" = none ∨ alookup ov "pull" = some .null) :
    alookup ov' "pull" = some (.list []) := by
  simp only [parse_overleaf] at h
  simp only [alookup_pySet] at h
  cases hpv : alookup ov "push" with
  | none =>
    rw [hpv] at h
    rcases habs with hqv | hqv <;>
      simp [alookup_pySet, hqv, exceptPureBind, exceptOkBind, exceptErrBind] at h <;>
      (injection h with h2; subst h2; simp [alookup_pySet])
  | some v =>
    rw [hpv] at h
    cases v with
    | null =>
      rcases habs with hqv | hqv <;>
        simp [alookup_pySet, hqv, exceptPureBind, exceptOkBind, exceptErrBind] at h <;>
        (injection h with h2; subst h2; simp [alookup_pySet])
    | list l =>
      rcases habs with hqv | hqv <;>
        simp [alookup_pySet, hqv, exceptPureBind, exceptOkBind, exceptErrBind] at h
      all_goals try split at h
      all_goals try (cases h)
      all_goals simp [alookup_pySet]
    | bool b => simp [exceptErrBind] at h
    | int n => simp [exceptErrBind] at h
    | str s => simp [exceptErrBind] at h
    | dict ps => simp [exceptErrBind] at h
    | odict ps => simp [exceptErrBind] at h

lemma lookupDeps_chain (x : String) : lookupDeps chainDeps x =
    if x = "a" then ["b"] else if x = "b" then ["c"] else [] := by
  rw [chainDeps, lookupDeps]
  by_cases h1 : x = "a"
  · subst h1; rfl
  · have hb1 : ("a" == x) = false :=
      beq_eq_false_iff_ne.mpr (fun hc => h1 hc.symm)
    by_cases h2 : x = "b"
    · subst h2; rfl
    · have hb2 : ("b" == x) = false :=
        beq_eq_false_iff_ne.mpr (fun hc => h2 hc.symm)
      by_cases h3 : x = "c"
      · subst h3; rfl
      · have hb3 : ("c" == x) = false :=
          beq_eq_false_iff_ne.mpr (fun hc => h3 hc.symm)
        simp [List.find?, hb1, hb2, hb3, h1, h2]

lemma lookupDeps_diamond (x : String) : lookupDeps diamondDeps x =
    if x = "a" then ["b", "c"] else if x = "b" then ["d"]
    else if x = "c" then ["d"] else [] := by
  rw [diamondDeps, lookupDeps]
  by_cases h1 : x = "a"
  · subst h1; rfl
  · have hb1 : ("a" == x) = false :=
      beq_eq_false_iff_ne.mpr (fun hc => h1 hc.symm)
    by_cases h2 : x = "b"
    · subst h2; rfl
    · have hb2 : ("b" == x) = false :=
        beq_eq_false_iff_ne.mpr (fun hc => h2 hc.symm)
      by_cases h3 : x = "c"
      · subst h3; rfl
      · have hb3 : ("c" == x) = false :=
          beq_eq_false_iff_ne.mpr (fun hc => h3 hc.symm)
        by_cases h4 : x = "d"
        · subst h4; rfl
        · have hb4 : ("d" == x) = false :=
            beq_eq_false_iff_ne.mpr (fun hc => h4 hc.symm)
          simp [List.find?, hb1, hb2, hb3, hb4, h1, h2, h3]

lemma acyclic_chain : Acyclic chainDeps := by
  apply acyclic_of_measure chainDeps
    (fun s => if s = "a" then 0 else if s = "b" then 1 else 2)
  intro x y he
  rw [Edge, lookupDeps_chain] at he
  by_cases h1 : x = "a"
  · rw [if_pos h1] at he
    have hy : y = "b" := List.mem_singleton.mp he
    subst h1; subst hy
    decide
  · rw [if_neg h1] at he
    by_cases h2 : x = "b"
    · rw [if_pos h2] at he
      have hy : y = "c" := List.mem_singleton.mp he
      subst h2; subst hy
      decide
    · rw [if_neg h2] at he
      cases he

lemma acyclic_diamond : Acyclic diamondDeps := by
  apply acyclic_of_measure diamondDeps
    (fun s => if s = "a" then 0 else if s = "d" then 2 else 1)
  intro x y he
  rw [Edge, lookupDeps_diamond] at he
  by_cases h1 : x = "a"
  · rw [if_pos h1] at he
    subst h1
    rcases List.mem_cons.mp he with hy | hy
    · subst hy; decide
    · have hy2 : y = "c" := List.mem_singleton.mp hy
      subst hy2; decide
  · rw [if_neg h1] at he
    by_cases h2 : x = "b"
    · rw [if_pos h2] at he
      have hy : y = "d" := List.mem_singleton.mp he
      subst h2; subst hy
      decide
    · rw [if_neg h2] at he
      by_cases h3 : x = "c"
      · rw [if_pos h3] at he
        have hy : y = "d" := List.mem_singleton.mp he
        subst h3; subst hy
        decide
      · rw [if_neg h3] at he
        cases he

lemma reaches_loop : Reaches loopDeps "a" "a" :=
  Reaches.single (show ("a" : String) ∈ lookupDeps loopDeps "a" by decide)

lemma mdepth_mchain : ∀ n, mdepth (mchain n) = n := by
  intro n
  induction n with
  | zero => simp [mchain, mdepth]
  | succ k ih =>
    show mdepth (.dict [("k", mchain k)]) = k + 1
    simp [mdepth, mdepthPairs, ih]
    omega

lemma ensure_branch_cache_absent (cps : List (String × Val)) (branch : String)
    (h : alookup cps branch = none) :
    ensure_branch_cache (.dict cps) branch =
      some (.dict (pySet cps branch
        (.dict [("zenodo", .null), ("sandbox", .null)]))) := by
  simp only [ensure_branch_cache, h]
  rfl

lemma ensure_branch_cache_present (cps : List (String × Val)) (branch : String)
    (ps : List (String × Val)) (h : alookup cps branch = some (.dict ps)) :
    ensure_branch_cache (.dict cps) branch =
      some (.dict (pySet cps branch (.dict
        (pySet (pySet ps "zenodo" ((alookup ps "zenodo").getD .null))
          "sandbox" ((alookup ps "sandbox").getD .null))))) := by
  simp only [ensure_branch_cache, h]
  simp [alookup_pySet]

lemma parse_config_main_cache_missing (g : GitInfo) (dev : Bool) (ver : String)
    (cfg : List (String × Val)) (h : alookup cfg "cache" = none) :
    parse_config_main g dev ver cfg = .error .keyError := by
  simp only [parse_config_main]
  simp [pyIndex, alookup_pySet, h, exceptOkBind, exceptErrBind]

lemma parse_config_main_stamp_missing (g : GitInfo) (dev : Bool) (ver : String)
    (cfg : List (String × Val)) (cps : List (String × Val))
    (hc : alookup cfg "cache" = some (.dict cps))
    (hb : alookup cps g.branch = none)
    (hs : alookup cfg "stamp" = none) :
    parse_config_main g dev ver cfg = .error .keyError := by
  simp only [parse_config_main]
  simp [pyIndex, alookup_pySet, hc, ensure_branch_cache, hb, hs,
    exceptOkBind, exceptErrBind]

lemma parse_config_main_stamp_text (g : GitInfo) (dev : Bool) (ver : String) (n : Int) :
    ∃ res stampPs, parse_config_main g dev ver (stampCfg n) = .ok res ∧
      alookup res "stamp" = some (.dict stampPs) ∧
      alookup stampPs "text" = some (.str (stamp_text_of g.url n)) := by
  refine ⟨_, _, rfl, rfl, rfl⟩
/-! ## Claim theorems -/

/-- C1 (counterexample): on a list of two ordered mappings sharing key
`"a"`, `as_dict` gives `"a"` the value of the EARLIER element (`1`),
not the later one (`2`) as the claim states: the `ChainMap` merge of
line 119 resolves every lookup to the first map containing the key. -/
theorem C1_counterexample :
    as_dict (.list [.odict [("a", .int 1)], .odict [("a", .int 2)]]) =
      .ok (.dict [("a", .int 1)]) ∧
    alookup (mergedOD [.odict [("a", .int 1)], .odict [("a", .int 2)]]) "a" =
      some (.int 1) ∧
    some (Val.int 1) ≠ some (Val.int 2) := by
  refine ⟨rfl, rfl, ?_⟩
  simp

/-- C1 (amended): the merge across the ordered-mapping partition of a
list input to `as_dict` is left-biased: the merged mapping gives every
key the value from the earliest ordered-mapping element of the list
containing it (that element's last binding for the key). -/
theorem C1_merge_left_biased (xs : List Val) (k : String) :
    alookup (mergedOD xs) k =
      firstSome (xs.filter isOD) (fun od => alookup (pyDict (odPairs od)) k) :=
  alookup_mergedOD xs k

/-- C2 (counterexample): normalization does not purge ordered mappings
nested inside elements of result sequences: on a mixed list, the merged
leading mapping keeps an `OrderedDict` value because sequence elements
are returned without recursion. -/
theorem C2_counterexample :
    as_dict (.list [.odict [("a", .odict [("b", .int 1)])], .int 5]) =
      .ok (.list [.dict [("a", .odict [("b", .int 1)])], .int 5]) ∧
    hasOD (.list [.dict [("a", .odict [("b", .int 1)])], .int 5]) = true := by
  constructor
  · rfl
  · simp [hasOD, hasODList, hasODPairs]

/-- C2 (amended): every successful `as_dict` output is free of
ordered-mapping variants at its top level and below plain-mapping
values; ordered mappings can survive only inside elements of result
sequences, which `as_dict` returns unnormalized. -/
theorem C2_no_shallow_odict (x y : Val) (h : as_dict x = .ok y) :
    hasShallowOD y = false :=
  as_dictF_shallow 32 0 x y h

/-- Witness for C2: the theorem applied to a concrete normalization. -/
theorem C2_no_shallow_odict_witness :
    hasShallowOD (.dict [("a", .int 1)]) = false :=
  C2_no_shallow_odict (.dict [("a", .int 1)]) (.dict [("a", .int 1)]) rfl

/-- C3 (counterexample): with the URL stamp enabled, a URL whose
scheme-stripped form has length 42 (over `maxlen` 40) but whose
host-collapsed form has length 33 is NOT truncated: the code computes
the trigger and the excess from the host-collapsed string, not from the
unabridged string as the claim states. -/
theorem C3_counterexample :
    (0 : Int) <
      ((stripSchemes "https://github.com/user/abcdefghijklmnopqrstuvwxyz".data).length :
        Int) - 40 ∧
    stamp_text_of "https://github.com/user/abcdefghijklmnopqrstuvwxyz" 40 =
      String.mk (escapeStamp
        (stripSchemes "https://github.com/user/abcdefghijklmnopqrstuvwxyz".data)) ∧
    stamp_text_of "https://github.com/user/abcdefghijklmnopqrstuvwxyz" 40 ≠
      String.mk (escapeStamp
        ((stripSchemes "https://github.com/user/abcdefghijklmnopqrstuvwxyz".data).take
            ((stripSchemes "https://github.com/user/abcdefghijklmnopqrstuvwxyz".data).length
              - ((((stripSchemes
                    "https://github.com/user/abcdefghijklmnopqrstuvwxyz".data).length : Int)
                  - 40).toNat + 3))
          ++ "...".data)) := by
  refine ⟨by decide, rfl, by decide⟩

/-- C3 (amended): truncation of the stamp text is triggered exactly when
the HOST-COLLAPSED string's length minus `maxlen` is positive, and then
the original string is shortened by that collapsed excess plus 3
characters with an ellipsis appended before escaping; otherwise the
string is kept whole.  The third conjunct ties the derivation into the
every-run tail of `parse_config`. -/
theorem C3_stamp_truncation (url : String) (maxlen : Int) :
    ((0 : Int) < ((collapsedHost (stripSchemes url.data)).length : Int) - maxlen →
      stamp_text_of url maxlen = String.mk (escapeStamp
        ((stripSchemes url.data).take ((stripSchemes url.data).length -
          ((((collapsedHost (stripSchemes url.data)).length : Int) - maxlen).toNat + 3))
          ++ "...".data))) ∧
    (((collapsedHost (stripSchemes url.data)).length : Int) - maxlen ≤ 0 →
      stamp_text_of url maxlen = String.mk (escapeStamp (stripSchemes url.data))) ∧
    (∀ (g : GitInfo) (dev : Bool) (ver : String) (n : Int), ∃ res stampPs,
      parse_config_main g dev ver (stampCfg n) = .ok res ∧
      alookup res "stamp" = some (.dict stampPs) ∧
      alookup stampPs "text" = some (.str (stamp_text_of g.url n))) := by
  refine ⟨?_, ?_, fun g dev ver n => parse_config_main_stamp_text g dev ver n⟩
  · intro h
    simp only [stamp_text_of]
    rw [if_pos h]
  · intro h
    simp only [stamp_text_of]
    rw [if_neg (not_lt.mpr h)]

/-- Witness for C3: the truncation branch at a concrete URL and
`maxlen` 39, where the host-collapsed length is 40. -/
theorem C3_stamp_truncation_witness :
    stamp_text_of "https://github.com/user/in_cred_ibly_long_repository_name" 39 =
      String.mk (escapeStamp
        ((stripSchemes
            "https://github.com/user/in_cred_ibly_long_repository_name".data).take
            ((stripSchemes
                "https://github.com/user/in_cred_ibly_long_repository_name".data).length -
              ((((collapsedHost (stripSchemes
                    "https://github.com/user/in_cred_ibly_long_repository_name".data)).length :
                  Int) - 39).toNat + 3))
          ++ "...".data)) :=
  (C3_stamp_truncation "https://github.com/user/in_cred_ibly_long_repository_name" 39).1
    (by decide)

/-- C4: on every acyclic dependency map the dependency closure computed
by `get_upstream_dependencies` contains exactly the files transitively
required (the `Reaches` relation), excludes the queried file, and the
returned list has no duplicate; on the chain and the diamond maps the
closures are the expected sets. -/
theorem C4_closure :
    (∀ (deps : List (String × List String)) (x : String) (f : Nat) (s : Finset String),
      Acyclic deps → gud f x deps = some s →
        ((∀ y, y ∈ s ↔ Reaches deps x y) ∧ x ∉ s ∧
          get_upstream_dependencies f x deps = some (s.sort (· ≤ ·)) ∧
          (s.sort (· ≤ ·)).Nodup ∧ ∀ y, y ∈ s.sort (· ≤ ·) ↔ y ∈ s)) ∧
    gud 4 "a" chainDeps = some {"b", "c"} ∧
    gud 4 "b" chainDeps = some {"c"} ∧
    gud 4 "c" chainDeps = some ∅ ∧
    gud 5 "a" diamondDeps = some {"b", "c", "d"} := by
  refine ⟨?_, by decide, by decide, by decide, by decide⟩
  intro deps x f s hA h
  have hiff : ∀ y, y ∈ s ↔ Reaches deps x y := fun y =>
    ⟨gud_sound deps f x s h y, fun hr => gud_complete deps x y hr f s h⟩
  refine ⟨hiff, fun hx => hA x ((hiff x).mp hx), ?_, Finset.sort_nodup _ _,
    fun y => Finset.mem_sort _⟩
  rw [get_upstream_dependencies, h]
  rfl

/-- Witness for C4: on the chain map, `"c"` is in the closure of `"a"`
and therefore transitively required. -/
theorem C4_closure_witness : Reaches chainDeps "a" "c" :=
  ((C4_closure.1 chainDeps "a" 4 {"b", "c"} acyclic_chain (by decide)).1 "c").mp
    (by decide)

/-- C5: normalization is idempotent: whenever `as_dict` succeeds, running
it again on the output returns the output unchanged (so every
already-canonical value, i.e. every value in the image of `as_dict`, is
a fixed point). -/
theorem C5_idempotent (x y : Val) (h : as_dict x = .ok y) : as_dict y = .ok y :=
  as_dictF_idem 32 0 x y h

/-- Witness for C5: the theorem applied to a concrete normalization. -/
theorem C5_idempotent_witness :
    as_dict (.dict [("a", .int 1)]) = .ok (.dict [("a", .int 1)]) :=
  C5_idempotent (.dict [("a", .int 1)]) (.dict [("a", .int 1)]) rfl

/-- C6 (counterexample): a present `push` value of `None` is not a
sequence, yet `parse_overleaf` does not raise: it converts it to the
empty list and succeeds, contradicting "every non-sequence value raises
ConfigError" as stated. -/
theorem C6_counterexample :
    isList Val.null = false ∧
    parse_overleaf (fun _ => none) [("push", Val.null)] =
      .ok [("push", .list []), ("id", .null), ("gh_actions_sync", .bool true),
        ("pull", .list [])] := ⟨rfl, rfl⟩

/-- C6 (amended): during sync-field validation a `push`/`pull` value
that is neither a sequence nor null raises `ConfigError`
(`.error ()`), regardless of the path resolver; an absent or null value
is defaulted to the empty sequence in the validated output. -/
theorem C6_sync_validation (r : Val → Option String) (ov : List (String × Val)) :
    (((∃ v, alookup ov "push" = some v ∧ isList v = false ∧ v ≠ .null) ∨
      (∃ w, alookup ov "pull" = some w ∧ isList w = false ∧ w ≠ .null)) →
      parse_overleaf r ov = .error ()) ∧
    (∀ ov', parse_overleaf r ov = .ok ov' →
      ((alookup ov "push" = none ∨ alookup ov "push" = some .null) →
        alookup ov' "push" = some (.list [])) ∧
      ((alookup ov "pull" = none ∨ alookup ov "pull" = some .null) →
        alookup ov' "pull" = some (.list []))) := by
  constructor
  · intro hbad
    rcases hbad with ⟨v, hv, hnl, hnn⟩ | ⟨w, hw, hnl, hnn⟩
    · exact parse_overleaf_push_bad r ov v hv hnl hnn
    · exact parse_overleaf_pull_bad r ov w hw hnl hnn
  · intro ov' h
    exact ⟨parse_overleaf_push_default r ov ov' h,
      parse_overleaf_pull_default r ov ov' h⟩

/-- Witness for C6: a string-valued `push` raises the configuration
error. -/
theorem C6_sync_validation_witness :
    parse_overleaf (fun _ => none) [("push", Val.str "x")] = .error () :=
  (C6_sync_validation (fun _ => none) [("push", Val.str "x")]).1
    (Or.inl ⟨Val.str "x", rfl, rfl, by simp⟩)

/-- C7: on every acyclic dependency map the closure computation
converges to a single value once the fuel exceeds the number of
declared keys (it is a total, well-defined function there); there is no
cycle detection, and querying a file that transitively requires itself
recurses unboundedly (no amount of fuel produces a result). -/
theorem C7_termination :
    (∀ (deps : List (String × List String)) (x : String), Acyclic deps →
      ∃ s, ∀ f, (keysOf deps).card < f → gud f x deps = some s) ∧
    (∀ (deps : List (String × List String)) (x : String),
      Reaches deps x x → ∀ f, gud f x deps = none) := by
  constructor
  · intro deps x hA
    rcases gud_total deps hA (keysOf deps) x (fun k hk _ => hk) with ⟨s, hs⟩
    exact ⟨s, fun f hf => gud_le deps _ f hf x s hs⟩
  · intro deps x hr f
    exact gud_none_of_cycle deps f x hr

/-- Witness for C7: the self-loop map never terminates at `"a"`. -/
theorem C7_termination_witness : gud 9 "a" loopDeps = none :=
  C7_termination.2 loopDeps "a" reaches_loop 9

/-- C8 (counterexample): a value whose mapping nesting reaches depth 31
hidden inside an untraversed mixed sequence does NOT raise: `as_dict`
returns it unchanged, contradicting "raises for every value nested to
depth 31" as stated. -/
theorem C8_counterexample :
    mdepth (.list [mchain 31, .int 5]) = 31 ∧
    as_dict (.list [mchain 31, .int 5]) = .ok (.list [mchain 31, .int 5]) := by
  constructor
  · have h0 : mdepth (Val.int 5) = 0 := by simp [mdepth]
    have h1 : mdepth (.list [mchain 31, .int 5]) = mdepthList [mchain 31, .int 5] := by
      simp [mdepth]
    have h2 : mdepthList [mchain 31, Val.int 5] =
        max (mdepth (mchain 31)) (max (mdepth (Val.int 5)) 0) := by
      simp [mdepthList]
    rw [h1, h2, mdepth_mchain, h0]
    omega
  · rfl

/-- C8 (amended): with the default `maxdepth` 30, `as_dict` never raises
on a value whose mapping nesting is at most 30, and it raises
`ConfigError` on the pure mapping chain of depth 31 (traversed nesting
at depth 31 hits the guard; nesting hidden inside untraversed sequence
elements does not). -/
theorem C8_depth_guard :
    (∀ x, mdepth x ≤ 30 → ∃ y, as_dict x = .ok y) ∧
    as_dict (mchain 31) = .error () := by
  constructor
  · intro x h
    exact as_dictF_ok_of_depth 32 0 x (by omega) (by omega)
  · rfl

/-- Witness for C8: the depth-30 pure mapping chain does not raise. -/
theorem C8_depth_guard_witness : as_dict (mchain 30) ≠ .error () := by
  intro hc
  rcases C8_depth_guard.1 (mchain 30) (by simp [mdepth_mchain]) with ⟨y, hy⟩
  rw [hy] at hc
  cases hc

/-- C9: the per-branch cache bookkeeping of `parse_config` creates the
record `{zenodo: null, sandbox: null}` when the branch key is absent,
and otherwise only fills the absent sub-fields with null, never
overwriting an existing value — so re-resolving preserves pre-existing
identifiers. -/
theorem C9_cache_state (cps : List (String × Val)) (branch : String) :
    (alookup cps branch = none →
      ensure_branch_cache (.dict cps) branch =
        some (.dict (pySet cps branch
          (.dict [("zenodo", .null), ("sandbox", .null)]))) ∧
      alookup (pySet cps branch (.dict [("zenodo", .null), ("sandbox", .null)]))
        branch = some (.dict [("zenodo", .null), ("sandbox", .null)])) ∧
    (∀ ps, alookup cps branch = some (.dict ps) →
      ensure_branch_cache (.dict cps) branch =
        some (.dict (pySet cps branch (.dict (cacheFill ps)))) ∧
      (∀ k v, alookup ps k = some v → alookup (cacheFill ps) k = some v) ∧
      (alookup ps "zenodo" = none → alookup (cacheFill ps) "zenodo" = some .null) ∧
      (alookup ps "sandbox" = none → alookup (cacheFill ps) "sandbox" = some .null)) := by
  constructor
  · intro h
    refine ⟨ensure_branch_cache_absent cps branch h, ?_⟩
    rw [alookup_pySet]
    simp
  · intro ps h
    refine ⟨ensure_branch_cache_present cps branch ps h, ?_, ?_, ?_⟩
    · intro k v hk
      simp only [cacheFill]
      rw [alookup_pySet, alookup_pySet]
      by_cases hs : k = "sandbox"
      · subst hs
        rw [if_pos rfl, hk]
        rfl
      · rw [if_neg hs]
        by_cases hz : k = "zenodo"
        · subst hz
          rw [if_pos rfl, hk]
          rfl
        · rw [if_neg hz]
          exact hk
    · intro hz
      simp only [cacheFill]
      rw [alookup_pySet, alookup_pySet]
      have hne : ("zenodo" : String) ≠ "sandbox" := by decide
      rw [if_neg hne, if_pos rfl, hz]
      rfl
    · intro hs
      simp only [cacheFill]
      rw [alookup_pySet]
      rw [if_pos rfl, hs]
      rfl

/-- Witness for C9: a pre-existing non-null `zenodo` identifier is
preserved by the field filling. -/
theorem C9_cache_state_witness :
    alookup (cacheFill [("zenodo", Val.str "12345")]) "zenodo" =
      some (Val.str "12345") :=
  ((C9_cache_state [("main", Val.dict [("zenodo", Val.str "12345")])] "main").2
    [("zenodo", Val.str "12345")] rfl).2.1 "zenodo" (Val.str "12345") rfl

/-- C10: outside the preprocessing branch, `parse_config`
unconditionally indexes `config["cache"]` and
`config["stamp"]["url"]["enabled"]`: a configuration lacking the
`cache` entry (for example the empty mapping), or one lacking the
`stamp` entry, fails with a plain `KeyError`, which is a different
error kind from `ConfigError`. -/
theorem C10_preconditions :
    (∀ (g : GitInfo) (dev : Bool) (ver : String) (cfg : List (String × Val)),
      alookup cfg "cache" = none →
        parse_config_main g dev ver cfg = .error .keyError) ∧
    (∀ (g : GitInfo) (dev : Bool) (ver : String) (cfg cps : List (String × Val)),
      alookup cfg "cache" = some (.dict cps) → alookup cps g.branch = none →
      alookup cfg "stamp" = none →
        parse_config_main g dev ver cfg = .error .keyError) ∧
    (∀ (g : GitInfo) (dev : Bool) (ver : String),
      parse_config_main g dev ver [] = .error .keyError) ∧
    Err.keyError ≠ Err.configError := by
  refine ⟨parse_config_main_cache_missing, ?_, ?_, by decide⟩
  · intro g dev ver cfg cps hc hb hs
    exact parse_config_main_stamp_missing g dev ver cfg cps hc hb hs
  · intro g dev ver
    exact parse_config_main_cache_missing g dev ver [] rfl

/-- Witness for C10: the empty configuration fails with `KeyError`. -/
theorem C10_preconditions_witness :
    parse_config_main ⟨"sha", "https://github.com/u/v", "u/v", "main", "", "false", ""⟩
      false "0.1.0" [] = .error .keyError :=
  C10_preconditions.1 ⟨"sha", "https://github.com/u/v", "u/v", "main", "", "false", ""⟩
    false "0.1.0" [] rfl
